import Mathlib

/-!
Formal verification of the numerical utility layer of the Staffehl
TNG-Cluster analysis repository.

The development shallowly embeds the functions of
`src/library/processing/statistics.py` (binning, masking, binned
averages/medians, column-normalized 2D histograms, volume-normalized
radial profiles) and, modelled from the spec, the
`selection.select_if_in` routine, and proves the specified properties
about them.

Arrays are embedded as Lean lists; exact arithmetic (`ℚ`, and `ℝ` where
the code computes square roots or multiplies by π) replaces floating
point. Fallible functions — those that log an error and return `None`
on malformed input — are embedded with `Option`. NaN propagation of the
`nanmean`/`nanstd`/`nanpercentile` family is not modelled: the embedded
values are exact rationals/reals, so the `nan`-aware numpy reductions
coincide with their ordinary counterparts.
-/

namespace Staffehl

/-- The index list `np.where(mask == v)[0]`: all positions of the integer
array `mask` holding the value `v`, in ascending order. The `statistics`
module uses this through the idiom
`ma.masked_array(q).compress(np.where(mask == v, 1, 0))`. -/
def whereEq (mask : List ℤ) (v : ℤ) : List ℕ :=
  (List.range mask.length).filter (fun i => decide (mask.getD i 0 = v))

/-- The number of bins `bin_quantity` iterates over: the `n_bins` argument
when given, or `np.max(bin_mask)` for the sentinel `-1`. (`List.foldr max 0`
agrees with `np.max` whenever the mask holds a positive entry; when it does
not, both versions produce an empty range of bins.) -/
def nBinsEff (bin_mask : List ℤ) (n_bins : ℤ) : ℕ :=
  if n_bins = -1 then (bin_mask.foldr max 0).toNat else n_bins.toNat

/-- `statistics.bin_quantity`: yield, for every bin index `b + 1` starting
from 1, the entries of `quantity` whose `bin_mask` value equals `b + 1`,
in their original order. The generator is embedded as the list of its
yielded arrays. -/
def bin_quantity {α : Type} [Inhabited α] (quantity : List α) (bin_mask : List ℤ)
    (n_bins : ℤ) : List (List α) :=
  (List.range (nBinsEff bin_mask n_bins)).map
    (fun (b : ℕ) => (whereEq bin_mask ((b : ℤ) + 1)).map (fun i => quantity.getD i default))

/-- `np.compress(flags, l, axis=0)`: keep the entries of `l` whose flag is 1
(the flags produced by `np.where(mask == index, 1, 0)` are 0/1 valued).
Like `np.compress`, a shorter flag array truncates the input. -/
def np_compress {α : Type} (flags : List ℕ) (l : List α) : List α :=
  ((l.zip flags).filter (fun p => decide (p.2 = 1))).map Prod.fst

/-- `statistics.mask_quantity` with `compress=True`: keep the entries of
`quantity` whose `mask` value equals `index` (default 0). For a
multidimensional quantity the element type `α` is a whole row (axis-0
filtering); the code's `compressed()`‑then‑`reshape` round trip restores
exactly these rows, which the embedding keeps as unmodified elements. -/
def mask_quantity {α : Type} (quantity : List α) (mask : List ℤ) (index : ℤ) : List α :=
  np_compress (mask.map (fun v => if v = index then 1 else 0)) quantity

/-- `np.nanmean` over a NaN-free array: the arithmetic mean. Over an empty
bin numpy emits NaN with a warning; the embedding yields the junk value
`0 / 0 = 0` instead. -/
def nanmean {K : Type} [DivisionRing K] (l : List K) : K :=
  l.sum / (l.length : K)

/-- `np.nanpercentile(l, q)` over a NaN-free array, with the default linear
interpolation: sort, take position `p = q/100 * (n-1)`, and interpolate
linearly between the neighbouring order statistics. -/
def np_percentile (l : List ℚ) (q : ℚ) : ℚ :=
  let s := List.insertionSort (· ≤ ·) l
  let p : ℚ := q / 100 * ((s.length : ℚ) - 1)
  let k : ℕ := p.floor.toNat
  let vk := s.getD k 0
  vk + (p - (k : ℚ)) * (s.getD (k + 1) vk - vk)

/-- `np.nanmedian` over a NaN-free array: the 50th percentile (for even
length, the mean of the two middle order statistics). -/
def nanmedian (l : List ℚ) : ℚ :=
  np_percentile l 50

/-- `statistics.get_binned_medians`: per-bin median together with the
distances from the median to the 16th and 84th percentiles (errorbar
lengths, not percentile positions). Returns `none` when the two input
shapes disagree. -/
def get_binned_medians (values : List ℚ) (bin_mask : List ℤ) (n_bins : ℤ) :
    Option (List (List ℚ)) :=
  if values.length = bin_mask.length then
    let bins := bin_quantity values bin_mask n_bins
    let med := bins.map nanmedian
    let lper := bins.map (fun b => np_percentile b 16)
    let uper := bins.map (fun b => np_percentile b 84)
    let lerr := (med.zip lper).map (fun p => |p.1 - p.2|)
    let uerr := (med.zip uper).map (fun p => |p.1 - p.2|)
    some [med, lerr, uerr]
  else none

/-- `np.nanstd` over a NaN-free array: the square root of the mean squared
deviation from the mean (population standard deviation, `ddof=0`). -/
noncomputable def nanstd (l : List ℝ) : ℝ :=
  Real.sqrt (nanmean (l.map (fun x => (x - nanmean l) ^ 2)))

/-- `statistics.get_binned_averages`: per-bin mean and, twice, the per-bin
standard deviation (duplicated for interface compatibility with the
asymmetric-error functions). Returns `none` when the two input shapes
disagree. -/
noncomputable def get_binned_averages (values : List ℝ) (bin_mask : List ℤ) (n_bins : ℤ) :
    Option (List (List ℝ)) :=
  if values.length = bin_mask.length then
    let bins := bin_quantity values bin_mask n_bins
    some [bins.map nanmean, bins.map nanstd, bins.map nanstd]
  else none

/-- `statistics.stack_histograms_per_mass_bin`: for every mass bin, the
column-wise mean, median, and 16th/84th percentiles of the member
histograms. Returns `none` when the number of histograms does not match
the length of the masking array. -/
def stack_histograms_per_mass_bin (histograms : List (List ℚ)) (n_mass_bins : ℕ)
    (mass_bin_mask : List ℤ) :
    Option (List (List ℚ) × List (List ℚ) × List (List (List ℚ))) :=
  if mass_bin_mask.length = histograms.length then
    let T := (histograms.headD []).length
    let binRows := fun (b : ℕ) =>
      (whereEq mass_bin_mask ((b : ℤ) + 1)).map (fun i => histograms.getD i [])
    let col := fun (rows : List (List ℚ)) (t : ℕ) => rows.map (fun r => r.getD t 0)
    some (
      (List.range n_mass_bins).map
        (fun b => (List.range T).map (fun t => nanmean (col (binRows b) t))),
      (List.range n_mass_bins).map
        (fun b => (List.range T).map (fun t => nanmedian (col (binRows b) t))),
      (List.range n_mass_bins).map
        (fun b =>
          [(List.range T).map (fun t => np_percentile (col (binRows b) t) 16),
           (List.range T).map (fun t => np_percentile (col (binRows b) t) 84)]))
  else none

/-- The bin index of value `v` for the edge array `edges`, shared by
`np.histogram` and `scipy.stats.binned_statistic_2d`: bin `i` is the
half-open interval `[edges[i], edges[i+1])`, except the last bin, which
also contains its right edge. `none` when `v` falls outside all bins. -/
def binIndex (edges : List ℚ) (v : ℚ) : Option ℕ :=
  (List.range (edges.length - 1)).find? (fun i =>
    decide (edges.getD i 0 ≤ v) &&
      (decide (v < edges.getD (i + 1) 0) ||
        (decide (i + 2 = edges.length) && decide (v ≤ edges.getD (i + 1) 0))))

/-- `scipy.stats.binned_statistic_2d(x, y, values, "sum", [xedges, yedges])`
at cell `(i, j)`: the sum of `values[k]` over the points `k` whose
x-position falls in x-bin `i` and whose y-position falls in y-bin `j`. -/
def binned_statistic_sum (x y values : List ℚ) (xedges yedges : List ℚ)
    (i j : ℕ) : ℚ :=
  ((List.range x.length).map (fun k =>
    if binIndex xedges (x.getD k 0) = some i ∧ binIndex yedges (y.getD k 0) = some j
    then values.getD k 0 else 0)).sum

/-- The two column normalizations of `column_normalized_hist2d`. -/
inductive Normalization : Type where
  | density : Normalization
  | range : Normalization

/-- `statistics.column_normalized_hist2d` with `statistic="sum"` and the
bins given as explicit edge arrays: a 2D histogram of `values`
(`None` meaning a plain count), with every x-column divided by its sum
(`density`) or by its maximum (`range`), returned transposed as a list of
`ny` rows of `nx` entries together with the edge arrays. Returns `none`
when `x` and `y` have different shapes. Division of a column by a zero
sum/maximum, a numpy NaN warning, is the junk value 0 in `ℚ`; `np.max`
over an empty axis, a numpy error, is the junk value 0 as well. -/
def column_normalized_hist2d (x y : List ℚ) (values : Option (List ℚ))
    (xedges yedges : List ℚ) (norm : Normalization) :
    Option (List (List ℚ) × List ℚ × List ℚ) :=
  if x.length = y.length then
    let vals := values.getD (List.replicate x.length 1)
    let nx := xedges.length - 1
    let ny := yedges.length - 1
    let hist := fun i j => binned_statistic_sum x y vals xedges yedges i j
    let denom : ℕ → ℚ :=
      match norm with
      | Normalization.density => fun i => ((List.range ny).map (hist i)).sum
      | Normalization.range => fun i => (((List.range ny).map (hist i)).maximum).getD 0
    some ((List.range ny).map (fun j => (List.range nx).map (fun i => hist i j / denom i)),
      xedges, yedges)
  else none

/-- `np.histogram(data, bins=edges, weights)`: the weighted count in every
bin of the edge array. -/
def np_histogram (data weights : List ℚ) (edges : List ℚ) : List ℚ :=
  (List.range (edges.length - 1)).map (fun b =>
    ((List.range data.length).map (fun k =>
      if binIndex edges (data.getD k 0) = some b then weights.getD k 0 else 0)).sum)

/-- The differences of consecutive cubes that the *code* of
`volume_normalized_radial_profile` computes:
`radial_distances[1:]**3 - radial_distances[:-1]**3`, taken from the
input distance array itself. -/
def shell_cubed_code (radial_distances : List ℚ) : List ℚ :=
  (radial_distances.zip radial_distances.tail).map (fun p => p.2 ^ 3 - p.1 ^ 3)

/-- `statistics.volume_normalized_radial_profile` with the bins given as an
explicit edge array, faithful to the code: the weighted radial histogram,
divided elementwise by `4/3 · π ·` the consecutive-cube differences of the
*input distances* (`shell_cubed_code`). numpy raises a broadcast error
when the two lengths disagree; the embedding truncates, and is only
evaluated at matching lengths. -/
noncomputable def volume_normalized_radial_profile (radial_distances weight : List ℚ)
    (edges : List ℚ) : List ℝ × List ℚ :=
  let hist := np_histogram radial_distances weight edges
  let shells := shell_cubed_code radial_distances
  ((hist.zip shells).map (fun p => (p.1 : ℝ) / (4 / 3 * Real.pi * (p.2 : ℝ))), edges)

/-- Modelled from the spec: the profile the docstring of
`volume_normalized_radial_profile` promises, `z = w / (4/3 π (R_r³ - R_l³))`
with `R_r` and `R_l` the right and left *edge of each radial bin*. -/
noncomputable def volume_normalized_radial_profile_spec (radial_distances weight : List ℚ)
    (edges : List ℚ) : List ℝ × List ℚ :=
  let hist := np_histogram radial_distances weight edges
  let shells : List ℚ := (edges.zip edges.tail).map (fun p => p.2 ^ 3 - p.1 ^ 3)
  ((hist.zip shells).map (fun p => (p.1 : ℝ) / (4 / 3 * Real.pi * (p.2 : ℝ))), edges)

/-- Modelled from the spec: the repository's `selection.select_if_in` is
not among the provided sources (only its unit tests are). Mode
`"iterate"`, the linear scan: the indices of `a` whose element also occurs
in `s`, in ascending index order. -/
def select_if_in_iterate (a s : List ℤ) : List ℕ :=
  (List.range a.length).filter (fun i => decide (a.getD i 0 ∈ s))

/-- Modelled from the spec: `selection.select_if_in`, mode `"intersect"`
(`np.intersect1d` with `return_indices=True`): for each distinct value
common to `a` and `s`, in ascending value order, the index of its first
occurrence in `a`. -/
def select_if_in_intersect (a s : List ℤ) : List ℕ :=
  (List.insertionSort (· ≤ ·) (a.dedup.filter (fun v => decide (v ∈ s)))).map
    (fun v => a.indexOf v)

/-- Modelled from the spec: `selection.select_if_in`, mode `"searchsort"`
with the default `assume_subset=False` (sorted search through `a`): for
each element of `s` that occurs in `a`, in order of occurrence in `s`
(duplicates in `s` included), the index of its first occurrence in `a`. -/
def select_if_in_searchsort (a s : List ℤ) : List ℕ :=
  (s.filter (fun v => decide (v ∈ a))).map (fun v => a.indexOf v)

/-! ## Shared helper lemmas -/

theorem getD_map_range {α : Type} (f : ℕ → α) {n i : ℕ} (d : α) (h : i < n) :
    ((List.range n).map f).getD i d = f i := by
  rw [List.getD_eq_getElem _ _ (by simpa using h)]
  simp

theorem getD_map_of_lt {α β : Type} (f : α → β) (l : List α) {i : ℕ} (d : β) (d₀ : α)
    (h : i < l.length) :
    (l.map f).getD i d = f (l.getD i d₀) := by
  rw [List.getD_eq_getElem _ _ (by simpa using h), List.getD_eq_getElem _ _ h]
  simp

theorem getD_set_ne {α : Type} (l : List α) {i j : ℕ} (h : i ≠ j) (x : α) (d : α) :
    (l.set i x).getD j d = l.getD j d := by
  simp [List.getD_eq_getElem?_getD, List.getElem?_set_ne h]

theorem mem_whereEq {mask : List ℤ} {v : ℤ} {i : ℕ} :
    i ∈ whereEq mask v ↔ i < mask.length ∧ mask.getD i 0 = v := by
  simp [whereEq, List.mem_filter, List.mem_range]

theorem whereEq_cons (b : ℤ) (m : List ℤ) (v : ℤ) :
    whereEq (b :: m) v =
      (if b = v then [0] else []) ++ (whereEq m v).map Nat.succ := by
  simp only [whereEq, List.length_cons, List.range_succ_eq_map, List.filter_cons,
    List.getD_cons_zero, List.filter_map]
  by_cases hb : b = v
  · simp [hb, Function.comp_def, List.getD_cons_succ]
  · simp [hb, Function.comp_def, List.getD_cons_succ]

theorem length_whereEq_le (mask : List ℤ) (v : ℤ) :
    (whereEq mask v).length ≤ mask.length := by
  calc (whereEq mask v).length ≤ (List.range mask.length).length :=
        List.length_filter_le _ _
    _ = mask.length := List.length_range _

/-- Changing the quantity at an index whose mask value matches no bin leaves
every bin yielded by `bin_quantity` unchanged. -/
theorem bin_quantity_set_invariant {α : Type} [Inhabited α] (q : List α) (m : List ℤ)
    (n : ℤ) {i : ℕ}
    (hne : ∀ b : ℕ, b < nBinsEff m n → m.getD i 0 ≠ (b : ℤ) + 1) (x : α) :
    bin_quantity (q.set i x) m n = bin_quantity q m n := by
  unfold bin_quantity
  apply List.map_congr_left
  intro b hb
  apply List.map_congr_left
  intro j hj
  have hmj := (mem_whereEq.mp hj).2
  have hji : j ≠ i := by
    intro he
    subst he
    exact hne b (List.mem_range.mp hb) hmj
  exact getD_set_ne q (Ne.symm hji) x default

/-! ## C5: out-of-range bin-mask entries -/

/-- C5: an entry whose bin-mask value is 0 ("below range") belongs to no bin
yielded by `bin_quantity`, and when an explicit bin count `n_bins ≥ 0` is
passed, neither does an entry whose bin-mask value exceeds `n_bins`
("above range"); consequently such an entry contributes to no per-bin
statistic of `get_binned_averages` or `get_binned_medians` — replacing its
value changes neither result. -/
theorem bin_quantity_out_of_range_excluded
    (values : List ℚ) (rvalues : List ℝ) (bin_mask : List ℤ) (n_bins : ℤ) (i : ℕ)
    (hcase : bin_mask.getD i 0 = 0 ∨ (0 ≤ n_bins ∧ n_bins < bin_mask.getD i 0)) :
    (∀ b : ℕ, b < nBinsEff bin_mask n_bins → i ∉ whereEq bin_mask ((b : ℤ) + 1)) ∧
    (∀ x : ℚ, bin_quantity (values.set i x) bin_mask n_bins =
      bin_quantity values bin_mask n_bins) ∧
    (∀ x : ℚ, get_binned_medians (values.set i x) bin_mask n_bins =
      get_binned_medians values bin_mask n_bins) ∧
    (∀ x : ℝ, get_binned_averages (rvalues.set i x) bin_mask n_bins =
      get_binned_averages rvalues bin_mask n_bins) := by
  have hne : ∀ b : ℕ, b < nBinsEff bin_mask n_bins → bin_mask.getD i 0 ≠ (b : ℤ) + 1 := by
    intro b _hb heq
    rcases hcase with h0 | ⟨hnn, hgt⟩
    · rw [h0] at heq
      omega
    · have hnb : nBinsEff bin_mask n_bins = n_bins.toNat := by
        unfold nBinsEff
        rw [if_neg (by omega)]
      rw [hnb] at _hb
      have : (b : ℤ) + 1 ≤ n_bins := by omega
      omega
  refine ⟨?_, ?_, ?_, ?_⟩
  · intro b hb hmem
    exact hne b hb (mem_whereEq.mp hmem).2
  · intro x
    exact bin_quantity_set_invariant values bin_mask n_bins hne x
  · intro x
    have hbins := bin_quantity_set_invariant values bin_mask n_bins hne x
    simp [get_binned_medians, List.length_set, hbins]
  · intro x
    have hbins := bin_quantity_set_invariant rvalues bin_mask n_bins hne x
    simp [get_binned_averages, List.length_set, hbins]

/-- Witness for C5 at a concrete input (entry 0 has mask value 0, entry 2
has mask value 5 above the explicit bin count 1). -/
theorem bin_quantity_out_of_range_excluded_witness :
    (∀ b : ℕ, b < nBinsEff [0, 1, 5] 1 → 0 ∉ whereEq [0, 1, 5] ((b : ℤ) + 1)) ∧
    (∀ x : ℚ, bin_quantity (([1, 2, 3] : List ℚ).set 0 x) [0, 1, 5] 1 =
      bin_quantity ([1, 2, 3] : List ℚ) [0, 1, 5] 1) ∧
    (∀ x : ℚ, get_binned_medians (([1, 2, 3] : List ℚ).set 0 x) [0, 1, 5] 1 =
      get_binned_medians ([1, 2, 3] : List ℚ) [0, 1, 5] 1) ∧
    (∀ x : ℝ, get_binned_averages (([1, 2, 3] : List ℝ).set 0 x) [0, 1, 5] 1 =
      get_binned_averages ([1, 2, 3] : List ℝ) [0, 1, 5] 1) :=
  bin_quantity_out_of_range_excluded [1, 2, 3] [1, 2, 3] [0, 1, 5] 1 0
    (Or.inl (by decide))

/-! ## C10: `mask_quantity` -/

/-- C10: `mask_quantity` with `compress=True` returns exactly the entries of
`quantity` at the positions where the mask value equals `index`, in their
original relative order (elements — rows, for a multidimensional quantity —
are kept whole, so each retains its shape). -/
theorem mask_quantity_selects_matching_positions {α : Type} [Inhabited α]
    (quantity : List α) (mask : List ℤ) (index : ℤ)
    (h : mask.length = quantity.length) :
    mask_quantity quantity mask index =
      (whereEq mask index).map (fun i => quantity.getD i default) := by
  induction mask generalizing quantity with
  | nil =>
    have : quantity = [] := List.eq_nil_of_length_eq_zero h.symm
    simp [this, mask_quantity, np_compress, whereEq]
  | cons b m ih =>
    match quantity, h with
    | a :: q, h =>
      have hlen : m.length = q.length := by simpa using h
      rw [whereEq_cons]
      by_cases hb : b = index
      · simp only [hb, if_pos rfl, List.map_append, List.map_map, List.map_cons,
          List.map_nil, List.getD_cons_zero]
        have : (whereEq m index).map ((fun i => (a :: q).getD i default) ∘ Nat.succ) =
            (whereEq m index).map (fun i => q.getD i default) := by
          apply List.map_congr_left
          intro i _
          simp [Function.comp_def, List.getD_cons_succ]
        rw [this, ← ih q hlen]
        simp [mask_quantity, np_compress, List.map_cons, List.zip_cons_cons,
          List.filter_cons, hb]
      · simp only [if_neg hb, List.nil_append, List.map_map]
        have : (whereEq m index).map ((fun i => (a :: q).getD i default) ∘ Nat.succ) =
            (whereEq m index).map (fun i => q.getD i default) := by
          apply List.map_congr_left
          intro i _
          simp [Function.comp_def, List.getD_cons_succ]
        rw [this, ← ih q hlen]
        simp [mask_quantity, np_compress, List.map_cons, List.zip_cons_cons,
          List.filter_cons, hb]

/-- Witness for C10 at a concrete input. -/
theorem mask_quantity_selects_matching_positions_witness :
    mask_quantity ([10, 20, 30, 40] : List ℚ) [0, 1, 0, 1] 0 =
      (whereEq [0, 1, 0, 1] 0).map (fun i => ([10, 20, 30, 40] : List ℚ).getD i default) :=
  mask_quantity_selects_matching_positions [10, 20, 30, 40] [0, 1, 0, 1] 0 (by decide)

theorem getD_zip {α β : Type} (l : List α) (m : List β) {i : ℕ} (d : α) (e : β)
    (h : i < (l.zip m).length) :
    (l.zip m).getD i (d, e) = (l.getD i d, m.getD i e) := by
  have hl : i < l.length := by
    rw [List.length_zip] at h
    omega
  have hm : i < m.length := by
    rw [List.length_zip] at h
    omega
  rw [List.getD_eq_getElem _ _ h, List.getElem_zip,
    List.getD_eq_getElem _ _ hl, List.getD_eq_getElem _ _ hm]

theorem length_bin_quantity {α : Type} [Inhabited α] (q : List α) (m : List ℤ) (n : ℤ) :
    (bin_quantity q m n).length = nBinsEff m n := by
  simp [bin_quantity]

theorem getD_bin_quantity {α : Type} [Inhabited α] (q : List α) (m : List ℤ) (n : ℤ)
    {b : ℕ} (hb : b < nBinsEff m n) :
    (bin_quantity q m n).getD b [] =
      (whereEq m ((b : ℤ) + 1)).map (fun k => q.getD k default) := by
  unfold bin_quantity
  exact getD_map_range _ _ hb

theorem list_sum_map_div (l : List ℕ) (f : ℕ → ℚ) (c : ℚ) :
    (l.map (fun j => f j / c)).sum = (l.map f).sum / c := by
  induction l with
  | nil => simp
  | cons a t ih => simp [ih, add_div]

theorem getD_replicate_one_nonneg (n k : ℕ) :
    0 ≤ (List.replicate n (1 : ℚ)).getD k 0 := by
  rcases lt_or_ge k n with hk | hk
  · rw [List.getD_eq_getElem _ _ (by simpa using hk)]
    simp
  · rw [List.getD_eq_default _ _ (by simpa using hk)]

/-- With unit values (a plain count histogram) every cell of the raw 2D
histogram is nonnegative. -/
theorem binned_statistic_sum_ones_nonneg (x y : List ℚ) (xedges yedges : List ℚ)
    (i j : ℕ) :
    0 ≤ binned_statistic_sum x y (List.replicate x.length 1) xedges yedges i j := by
  apply List.sum_nonneg
  intro a ha
  rcases List.mem_map.mp ha with ⟨k, _, rfl⟩
  split
  · exact getD_replicate_one_nonneg _ _
  · exact le_refl 0

/-! ## C4: `get_binned_medians` -/

/-- C4: for same-shape inputs, `get_binned_medians` returns a 3 × B array
whose first row holds the per-bin median and whose second and third rows
hold the non-negative distances from the median to the 16th and the 84th
percentile of each bin — errorbar lengths, not the percentile position
values. -/
theorem get_binned_medians_spec (values : List ℚ) (bin_mask : List ℤ) (n_bins : ℤ)
    (h : values.length = bin_mask.length) :
    ∃ rows, get_binned_medians values bin_mask n_bins = some rows ∧
      rows.length = 3 ∧
      (∀ r ∈ rows, r.length = nBinsEff bin_mask n_bins) ∧
      (∀ b : ℕ, b < nBinsEff bin_mask n_bins →
        (rows.getD 0 []).getD b 0 =
          nanmedian ((whereEq bin_mask ((b : ℤ) + 1)).map (fun k => values.getD k default)) ∧
        (rows.getD 1 []).getD b 0 =
          |(rows.getD 0 []).getD b 0 -
            np_percentile
              ((whereEq bin_mask ((b : ℤ) + 1)).map (fun k => values.getD k default)) 16| ∧
        (rows.getD 2 []).getD b 0 =
          |(rows.getD 0 []).getD b 0 -
            np_percentile
              ((whereEq bin_mask ((b : ℤ) + 1)).map (fun k => values.getD k default)) 84| ∧
        0 ≤ (rows.getD 1 []).getD b 0 ∧ 0 ≤ (rows.getD 2 []).getD b 0) := by
  set bins := bin_quantity values bin_mask n_bins with hbins
  set med := bins.map nanmedian with hmed
  set lper := bins.map (fun l => np_percentile l 16) with hlper
  set uper := bins.map (fun l => np_percentile l 84) with huper
  set lerr := (med.zip lper).map (fun p => |p.1 - p.2|) with hlerr
  set uerr := (med.zip uper).map (fun p => |p.1 - p.2|) with huerr
  have hres : get_binned_medians values bin_mask n_bins = some [med, lerr, uerr] := by
    unfold get_binned_medians
    rw [if_pos h]
  have hbl : bins.length = nBinsEff bin_mask n_bins := length_bin_quantity _ _ _
  have hmedl : med.length = nBinsEff bin_mask n_bins := by
    rw [hmed, List.length_map, hbl]
  have hlperl : lper.length = nBinsEff bin_mask n_bins := by
    rw [hlper, List.length_map, hbl]
  have huperl : uper.length = nBinsEff bin_mask n_bins := by
    rw [huper, List.length_map, hbl]
  have hlerrl : lerr.length = nBinsEff bin_mask n_bins := by
    rw [hlerr, List.length_map, List.length_zip, hmedl, hlperl, min_self]
  have huerrl : uerr.length = nBinsEff bin_mask n_bins := by
    rw [huerr, List.length_map, List.length_zip, hmedl, huperl, min_self]
  refine ⟨[med, lerr, uerr], hres, rfl, ?_, ?_⟩
  · intro r hr
    simp only [List.mem_cons, List.not_mem_nil, or_false] at hr
    rcases hr with rfl | rfl | rfl
    · exact hmedl
    · exact hlerrl
    · exact huerrl
  · intro b hb
    have hbb : b < bins.length := by omega
    have hbinb : bins.getD b [] =
        (whereEq bin_mask ((b : ℤ) + 1)).map (fun k => values.getD k default) :=
      getD_bin_quantity _ _ _ hb
    have hm0 : med.getD b 0 =
        nanmedian ((whereEq bin_mask ((b : ℤ) + 1)).map (fun k => values.getD k default)) := by
      rw [hmed, getD_map_of_lt nanmedian bins 0 [] hbb, hbinb]
    have hl0 : lper.getD b 0 =
        np_percentile ((whereEq bin_mask ((b : ℤ) + 1)).map
          (fun k => values.getD k default)) 16 := by
      rw [hlper, getD_map_of_lt _ bins 0 [] hbb, hbinb]
    have hu0 : uper.getD b 0 =
        np_percentile ((whereEq bin_mask ((b : ℤ) + 1)).map
          (fun k => values.getD k default)) 84 := by
      rw [huper, getD_map_of_lt _ bins 0 [] hbb, hbinb]
    have hle : lerr.getD b 0 = |med.getD b 0 - lper.getD b 0| := by
      have hzl : b < (med.zip lper).length := by
        rw [List.length_zip, hmedl, hlperl, min_self]
        exact hb
      rw [hlerr, getD_map_of_lt _ (med.zip lper) 0 (0, 0) hzl, getD_zip _ _ _ _ hzl]
    have hue : uerr.getD b 0 = |med.getD b 0 - uper.getD b 0| := by
      have hzu : b < (med.zip uper).length := by
        rw [List.length_zip, hmedl, huperl, min_self]
        exact hb
      rw [huerr, getD_map_of_lt _ (med.zip uper) 0 (0, 0) hzu, getD_zip _ _ _ _ hzu]
    refine ⟨by simpa using hm0, ?_, ?_, ?_, ?_⟩
    · simp only [List.getD_cons_zero, List.getD_cons_succ]
      rw [hle, hm0, hl0]
    · simp only [List.getD_cons_zero, List.getD_cons_succ]
      rw [hue, hm0, hu0]
    · simp only [List.getD_cons_zero, List.getD_cons_succ]
      rw [hle]
      exact abs_nonneg _
    · simp only [List.getD_cons_zero, List.getD_cons_succ]
      rw [hue]
      exact abs_nonneg _

/-- Witness for C4 at a concrete input. -/
theorem get_binned_medians_spec_witness :
    ∃ rows, get_binned_medians [1, 2, 3, 4] [1, 1, 2, 2] (-1) = some rows ∧
      rows.length = 3 ∧
      (∀ r ∈ rows, r.length = nBinsEff [1, 1, 2, 2] (-1)) ∧
      (∀ b : ℕ, b < nBinsEff [1, 1, 2, 2] (-1) →
        (rows.getD 0 []).getD b 0 =
          nanmedian ((whereEq [1, 1, 2, 2] ((b : ℤ) + 1)).map
            (fun k => ([1, 2, 3, 4] : List ℚ).getD k default)) ∧
        (rows.getD 1 []).getD b 0 =
          |(rows.getD 0 []).getD b 0 -
            np_percentile ((whereEq [1, 1, 2, 2] ((b : ℤ) + 1)).map
              (fun k => ([1, 2, 3, 4] : List ℚ).getD k default)) 16| ∧
        (rows.getD 2 []).getD b 0 =
          |(rows.getD 0 []).getD b 0 -
            np_percentile ((whereEq [1, 1, 2, 2] ((b : ℤ) + 1)).map
              (fun k => ([1, 2, 3, 4] : List ℚ).getD k default)) 84| ∧
        0 ≤ (rows.getD 1 []).getD b 0 ∧ 0 ≤ (rows.getD 2 []).getD b 0) :=
  get_binned_medians_spec [1, 2, 3, 4] [1, 1, 2, 2] (-1) (by decide)

/-! ## C8: `get_binned_averages` -/

/-- C8: for same-shape inputs, `get_binned_averages` returns a 3 × B array
whose first row holds the per-bin mean and whose second and third rows are
equal, both holding the per-bin standard deviation (duplicated for
compatibility with the asymmetric-error functions). -/
theorem get_binned_averages_spec (values : List ℝ) (bin_mask : List ℤ) (n_bins : ℤ)
    (h : values.length = bin_mask.length) :
    ∃ rows, get_binned_averages values bin_mask n_bins = some rows ∧
      rows.length = 3 ∧
      (∀ r ∈ rows, r.length = nBinsEff bin_mask n_bins) ∧
      rows.getD 1 [] = rows.getD 2 [] ∧
      (∀ b : ℕ, b < nBinsEff bin_mask n_bins →
        (rows.getD 0 []).getD b 0 =
          nanmean ((whereEq bin_mask ((b : ℤ) + 1)).map (fun k => values.getD k default)) ∧
        (rows.getD 1 []).getD b 0 =
          nanstd ((whereEq bin_mask ((b : ℤ) + 1)).map (fun k => values.getD k default)) ∧
        (rows.getD 2 []).getD b 0 =
          nanstd ((whereEq bin_mask ((b : ℤ) + 1)).map (fun k => values.getD k default))) := by
  set bins := bin_quantity values bin_mask n_bins with hbins
  have hres : get_binned_averages values bin_mask n_bins =
      some [bins.map nanmean, bins.map nanstd, bins.map nanstd] := by
    unfold get_binned_averages
    rw [if_pos h]
  have hbl : bins.length = nBinsEff bin_mask n_bins := length_bin_quantity _ _ _
  refine ⟨[bins.map nanmean, bins.map nanstd, bins.map nanstd], hres, rfl, ?_, rfl, ?_⟩
  · intro r hr
    simp only [List.mem_cons, List.not_mem_nil, or_false] at hr
    rcases hr with rfl | rfl | rfl <;> rw [List.length_map, hbl]
  · intro b hb
    have hbb : b < bins.length := by omega
    have hbinb : bins.getD b [] =
        (whereEq bin_mask ((b : ℤ) + 1)).map (fun k => values.getD k default) :=
      getD_bin_quantity _ _ _ hb
    refine ⟨?_, ?_, ?_⟩
    · simp only [List.getD_cons_zero]
      rw [getD_map_of_lt nanmean bins 0 [] hbb, hbinb]
    · simp only [List.getD_cons_zero, List.getD_cons_succ]
      rw [getD_map_of_lt nanstd bins 0 [] hbb, hbinb]
    · simp only [List.getD_cons_zero, List.getD_cons_succ]
      rw [getD_map_of_lt nanstd bins 0 [] hbb, hbinb]

/-- Witness for C8 at a concrete input. -/
theorem get_binned_averages_spec_witness :
    ∃ rows, get_binned_averages [1, 3, 2, 4] [1, 1, 2, 2] (-1) = some rows ∧
      rows.length = 3 ∧
      (∀ r ∈ rows, r.length = nBinsEff [1, 1, 2, 2] (-1)) ∧
      rows.getD 1 [] = rows.getD 2 [] ∧
      (∀ b : ℕ, b < nBinsEff [1, 1, 2, 2] (-1) →
        (rows.getD 0 []).getD b 0 =
          nanmean ((whereEq [1, 1, 2, 2] ((b : ℤ) + 1)).map
            (fun k => ([1, 3, 2, 4] : List ℝ).getD k default)) ∧
        (rows.getD 1 []).getD b 0 =
          nanstd ((whereEq [1, 1, 2, 2] ((b : ℤ) + 1)).map
            (fun k => ([1, 3, 2, 4] : List ℝ).getD k default)) ∧
        (rows.getD 2 []).getD b 0 =
          nanstd ((whereEq [1, 1, 2, 2] ((b : ℤ) + 1)).map
            (fun k => ([1, 3, 2, 4] : List ℝ).getD k default))) :=
  get_binned_averages_spec [1, 3, 2, 4] [1, 1, 2, 2] (-1) (by simp)

/-! ## C9: shape-mismatch guards -/

/-- C9: on inputs whose shapes disagree — values vs. bin mask for
`get_binned_averages`/`get_binned_medians`, histogram count vs. mask length
for `stack_histograms_per_mass_bin`, x vs. y for
`column_normalized_hist2d` — each function returns `none` (the embedding of
Python's logged-error `return None` path; no exception, and in the pure
embedding the inputs are trivially unmodified). -/
theorem shape_mismatch_returns_none
    (values : List ℝ) (bin_mask : List ℤ) (n_bins : ℤ)
    (qvalues : List ℚ) (qbin_mask : List ℤ) (qn_bins : ℤ)
    (histograms : List (List ℚ)) (n_mass_bins : ℕ) (mass_bin_mask : List ℤ)
    (x y : List ℚ) (hvalues : Option (List ℚ)) (xedges yedges : List ℚ)
    (norm : Normalization)
    (h1 : values.length ≠ bin_mask.length)
    (h2 : qvalues.length ≠ qbin_mask.length)
    (h3 : mass_bin_mask.length ≠ histograms.length)
    (h4 : x.length ≠ y.length) :
    get_binned_averages values bin_mask n_bins = none ∧
    get_binned_medians qvalues qbin_mask qn_bins = none ∧
    stack_histograms_per_mass_bin histograms n_mass_bins mass_bin_mask = none ∧
    column_normalized_hist2d x y hvalues xedges yedges norm = none := by
  refine ⟨?_, ?_, ?_, ?_⟩
  · simp [get_binned_averages, h1]
  · simp [get_binned_medians, h2]
  · simp [stack_histograms_per_mass_bin, h3]
  · simp [column_normalized_hist2d, h4]

/-! ## C1: `volume_normalized_radial_profile` -/

/-- C1 (code bug): at radial distances `[1/2, 3/2, 1/2]` with unit weights
and bin edges `[0, 1, 2]`, the code's profile — shell volumes built from
consecutive *input distances* instead of the bin edges, contradicting its
own docstring — has a negative second entry, while the docstring formula
yields a positive one; the two outputs differ. -/
theorem volume_normalized_radial_profile_uses_distances_not_edges :
    ((volume_normalized_radial_profile [1/2, 3/2, 1/2] [1, 1, 1] [0, 1, 2]).1.getD 1 0 < 0) ∧
    (0 < (volume_normalized_radial_profile_spec [1/2, 3/2, 1/2] [1, 1, 1] [0, 1, 2]).1.getD 1 0) ∧
    (volume_normalized_radial_profile [1/2, 3/2, 1/2] [1, 1, 1] [0, 1, 2]).1 ≠
      (volume_normalized_radial_profile_spec [1/2, 3/2, 1/2] [1, 1, 1] [0, 1, 2]).1 := by
  have hhist : np_histogram [1/2, 3/2, 1/2] [1, 1, 1] [0, 1, 2] = [2, 1] := by
    norm_num [np_histogram, binIndex, List.range_succ]
  have hshell : shell_cubed_code [1/2, 3/2, 1/2] = [13/4, -13/4] := by
    norm_num [shell_cubed_code]
  have hcode : (volume_normalized_radial_profile [1/2, 3/2, 1/2] [1, 1, 1] [0, 1, 2]).1.getD 1 0 =
      ((1 : ℚ) : ℝ) / (4 / 3 * Real.pi * ((-13/4 : ℚ) : ℝ)) := by
    unfold volume_normalized_radial_profile
    rw [hhist, hshell]
    simp
  have hspec : (volume_normalized_radial_profile_spec [1/2, 3/2, 1/2] [1, 1, 1] [0, 1, 2]).1.getD 1 0 =
      ((1 : ℚ) : ℝ) / (4 / 3 * Real.pi * ((7 : ℚ) : ℝ)) := by
    unfold volume_normalized_radial_profile_spec
    rw [hhist]
    norm_num
  have hneg : ((1 : ℚ) : ℝ) / (4 / 3 * Real.pi * ((-13/4 : ℚ) : ℝ)) < 0 := by
    apply div_neg_of_pos_of_neg
    · norm_num
    · push_cast
      nlinarith [Real.pi_pos]
  have hpos : 0 < ((1 : ℚ) : ℝ) / (4 / 3 * Real.pi * ((7 : ℚ) : ℝ)) := by
    apply div_pos
    · norm_num
    · push_cast
      nlinarith [Real.pi_pos]
  refine ⟨by rw [hcode]; exact hneg, by rw [hspec]; exact hpos, ?_⟩
  intro heq
  rw [heq] at hcode
  rw [hcode] at hspec
  nlinarith [Real.pi_pos, hneg, hpos, hspec]

/-! ## C3 and C6: column normalizations of the 2D histogram -/

/-- C3: with `normalization="density"` (and the default count values), every
x-column of the returned histogram whose un-normalized sum is non-zero has
its values over all y bins summing to exactly one. -/
theorem column_normalized_hist2d_density_columns_sum_to_one
    (x y : List ℚ) (xedges yedges : List ℚ) (i : ℕ)
    (hxy : x.length = y.length)
    (hi : i < xedges.length - 1)
    (hS : ((List.range (yedges.length - 1)).map
      (fun j => binned_statistic_sum x y (List.replicate x.length 1) xedges yedges i j)).sum
      ≠ 0) :
    ∃ H, column_normalized_hist2d x y none xedges yedges Normalization.density =
        some (H, xedges, yedges) ∧
      ((List.range (yedges.length - 1)).map (fun j => (H.getD j []).getD i 0)).sum = 1 := by
  set nx := xedges.length - 1 with hnx
  set ny := yedges.length - 1 with hny
  set hist := fun i' j => binned_statistic_sum x y (List.replicate x.length 1) xedges yedges i' j
    with hhist
  set S := fun i' => ((List.range ny).map (hist i')).sum with hSdef
  set H := (List.range ny).map (fun j => (List.range nx).map (fun i' => hist i' j / S i'))
    with hH
  have hres : column_normalized_hist2d x y none xedges yedges Normalization.density =
      some (H, xedges, yedges) := by
    unfold column_normalized_hist2d
    rw [if_pos hxy]
    rfl
  refine ⟨H, hres, ?_⟩
  have hrow : (List.range ny).map (fun j => (H.getD j []).getD i 0) =
      (List.range ny).map (fun j => hist i j / S i) := by
    apply List.map_congr_left
    intro j hj
    rw [hH, getD_map_range _ _ (List.mem_range.mp hj), getD_map_range _ _ hi]
  rw [hrow, list_sum_map_div]
  exact div_self hS

/-- Witness for C3 at a concrete input. -/
theorem column_normalized_hist2d_density_columns_sum_to_one_witness :
    ∃ H, column_normalized_hist2d [1/2, 1/2, 3/2] [1/2, 3/2, 1/2] none [0, 1, 2] [0, 1, 2]
        Normalization.density = some (H, [0, 1, 2], [0, 1, 2]) ∧
      ((List.range (([0, 1, 2] : List ℚ).length - 1)).map
        (fun j => (H.getD j []).getD 0 0)).sum = 1 :=
  column_normalized_hist2d_density_columns_sum_to_one [1/2, 1/2, 3/2] [1/2, 3/2, 1/2]
    [0, 1, 2] [0, 1, 2] 0 (by decide) (by decide)
    (by norm_num [binned_statistic_sum, binIndex, List.range_succ])

/-- C6: with `normalization="range"` (and the default count values), every
x-column of the returned histogram whose un-normalized maximum is positive
has all its values between 0 and 1, and its maximum equal to exactly one
(the minimum is not mapped to zero — values are merely divided by the
column maximum). -/
theorem column_normalized_hist2d_range_column_max_is_one
    (x y : List ℚ) (xedges yedges : List ℚ) (i : ℕ)
    (hxy : x.length = y.length)
    (hi : i < xedges.length - 1)
    (hM : 0 < (((List.range (yedges.length - 1)).map
      (fun j => binned_statistic_sum x y (List.replicate x.length 1) xedges yedges i j)).maximum).getD 0) :
    ∃ H, column_normalized_hist2d x y none xedges yedges Normalization.range =
        some (H, xedges, yedges) ∧
      (∀ j : ℕ, j < yedges.length - 1 →
        0 ≤ (H.getD j []).getD i 0 ∧ (H.getD j []).getD i 0 ≤ 1) ∧
      (∃ j : ℕ, j < yedges.length - 1 ∧ (H.getD j []).getD i 0 = 1) := by
  set nx := xedges.length - 1 with hnx
  set ny := yedges.length - 1 with hny
  set hist := fun i' j => binned_statistic_sum x y (List.replicate x.length 1) xedges yedges i' j
    with hhist
  set M := fun i' => (((List.range ny).map (hist i')).maximum).getD 0 with hMdef
  set H := (List.range ny).map (fun j => (List.range nx).map (fun i' => hist i' j / M i'))
    with hH
  have hres : column_normalized_hist2d x y none xedges yedges Normalization.range =
      some (H, xedges, yedges) := by
    unfold column_normalized_hist2d
    rw [if_pos hxy]
    rfl
  have hMi : 0 < M i := hM
  have hentry : ∀ j : ℕ, j < ny → (H.getD j []).getD i 0 = hist i j / M i := by
    intro j hj
    rw [hH, getD_map_range _ _ hj, getD_map_range _ _ hi]
  obtain ⟨m, hmax⟩ : ∃ m, ((List.range ny).map (hist i)).maximum = some m := by
    rcases hmaxcase : ((List.range ny).map (hist i)).maximum with _ | m
    · exfalso
      rw [hMdef] at hMi
      simp only at hMi
      rw [hmaxcase] at hMi
      exact lt_irrefl 0 hMi
    · exact ⟨m, rfl⟩
  have hMm : M i = m := by
    rw [hMdef]
    simp only
    rw [hmax]
    rfl
  have hmmem := List.maximum_mem hmax
  refine ⟨H, hres, ?_, ?_⟩
  · intro j hj
    rw [hentry j hj]
    constructor
    · exact div_nonneg (binned_statistic_sum_ones_nonneg x y xedges yedges i j) (le_of_lt hMi)
    · rw [div_le_one hMi]
      have hmem : hist i j ∈ (List.range ny).map (hist i) :=
        List.mem_map.mpr ⟨j, List.mem_range.mpr hj, rfl⟩
      have := List.le_maximum_of_mem hmem hmax
      rw [hMm]
      exact this
  · rcases List.mem_map.mp hmmem with ⟨j, hjmem, hje⟩
    refine ⟨j, List.mem_range.mp hjmem, ?_⟩
    rw [hentry j (List.mem_range.mp hjmem), hje, hMm]
    exact div_self (ne_of_gt (hMm ▸ hMi))

/-- Witness for C6 at a concrete input. -/
theorem column_normalized_hist2d_range_column_max_is_one_witness :
    ∃ H, column_normalized_hist2d [1/2, 1/2, 3/2] [1/2, 3/2, 1/2] none [0, 1, 2] [0, 1, 2]
        Normalization.range = some (H, [0, 1, 2], [0, 1, 2]) ∧
      (∀ j : ℕ, j < ([0, 1, 2] : List ℚ).length - 1 →
        0 ≤ (H.getD j []).getD 0 0 ∧ (H.getD j []).getD 0 0 ≤ 1) ∧
      (∃ j : ℕ, j < ([0, 1, 2] : List ℚ).length - 1 ∧ (H.getD j []).getD 0 0 = 1) :=
  column_normalized_hist2d_range_column_max_is_one [1/2, 1/2, 3/2] [1/2, 3/2, 1/2]
    [0, 1, 2] [0, 1, 2] 0 (by decide) (by decide)
    (by norm_num [binned_statistic_sum, binIndex, List.range_succ, List.maximum,
      List.argmax, List.argAux])

/-- Witness for C9 at concrete mismatched inputs. -/
theorem shape_mismatch_returns_none_witness :
    get_binned_averages [1] [1, 2] (-1) = none ∧
    get_binned_medians [1] [1, 2] (-1) = none ∧
    stack_histograms_per_mass_bin [[1]] 1 [1, 2] = none ∧
    column_normalized_hist2d [1] [1, 2] none [0, 1] [0, 1] Normalization.density = none :=
  shape_mismatch_returns_none [1] [1, 2] (-1) [1] [1, 2] (-1) [[1]] 1 [1, 2]
    [1] [1, 2] none [0, 1] [0, 1] Normalization.density
    (by simp) (by simp) (by simp) (by simp)

/-! ## Helper lemmas for `select_if_in` (first-occurrence indices) -/

theorem getD_indexOf {l : List ℤ} {v : ℤ} (h : v ∈ l) :
    l.getD (l.indexOf v) 0 = v := by
  have hlt : l.indexOf v < l.length := List.indexOf_lt_length.mpr h
  rw [List.getD_eq_getElem _ _ hlt]
  exact List.indexOf_get hlt

theorem indexOf_le_of_getD (l : List ℤ) (v : ℤ) :
    ∀ j : ℕ, j < l.length → l.getD j 0 = v → l.indexOf v ≤ j := by
  induction l with
  | nil =>
    intro j hj _
    simp at hj
  | cons b t ih =>
    intro j hj hg
    by_cases hb : b = v
    · subst hb
      rw [List.indexOf_cons_self]
      omega
    · match j with
      | 0 =>
        rw [List.getD_cons_zero] at hg
        exact absurd hg hb
      | j + 1 =>
        rw [List.getD_cons_succ] at hg
        have := ih j (by simpa using hj) hg
        rw [List.indexOf_cons_ne _ hb]
        omega

theorem getD_ne_of_lt_indexOf (l : List ℤ) (v : ℤ) :
    ∀ j : ℕ, j < l.indexOf v → l.getD j 0 ≠ v := by
  induction l with
  | nil =>
    intro j hj
    rw [List.indexOf_nil] at hj
    omega
  | cons b t ih =>
    intro j hj
    by_cases hb : b = v
    · subst hb
      rw [List.indexOf_cons_self] at hj
      omega
    · rw [List.indexOf_cons_ne _ hb] at hj
      match j with
      | 0 => simpa using hb
      | j + 1 =>
        rw [List.getD_cons_succ]
        exact ih j (by omega)

/-- The indices of the form `indexOf v` for `v` a common value of `s` and
`a` are exactly the in-range first-occurrence indices whose value lies in
`s`. -/
theorem indexOf_common_char {a s : List ℤ} {i : ℕ} :
    (∃ v, v ∈ s ∧ v ∈ a ∧ i = a.indexOf v) ↔
      i < a.length ∧ a.getD i 0 ∈ s ∧ ∀ j : ℕ, j < i → a.getD j 0 ≠ a.getD i 0 := by
  constructor
  · rintro ⟨v, hvs, hva, rfl⟩
    have hlt : a.indexOf v < a.length := List.indexOf_lt_length.mpr hva
    have hval : a.getD (a.indexOf v) 0 = v := getD_indexOf hva
    refine ⟨hlt, by rwa [hval], ?_⟩
    intro j hj
    rw [hval]
    exact getD_ne_of_lt_indexOf a v j hj
  · rintro ⟨hlt, hvs, hfirst⟩
    refine ⟨a.getD i 0, hvs, ?_, ?_⟩
    · rw [List.getD_eq_getElem _ _ hlt]
      exact List.getElem_mem hlt
    · have hmem : a.getD i 0 ∈ a := by
        rw [List.getD_eq_getElem _ _ hlt]
        exact List.getElem_mem hlt
      have hle : a.indexOf (a.getD i 0) ≤ i := indexOf_le_of_getD a _ i hlt rfl
      rcases eq_or_lt_of_le hle with heq | hidx
      · exact heq.symm
      · exact absurd (getD_indexOf hmem) (hfirst _ hidx)

theorem mem_select_if_in_iterate {a s : List ℤ} {i : ℕ} :
    i ∈ select_if_in_iterate a s ↔ i < a.length ∧ a.getD i 0 ∈ s := by
  simp [select_if_in_iterate, List.mem_filter, List.mem_range]

theorem mem_select_if_in_intersect {a s : List ℤ} {i : ℕ} :
    i ∈ select_if_in_intersect a s ↔ ∃ v, v ∈ s ∧ v ∈ a ∧ i = a.indexOf v := by
  unfold select_if_in_intersect
  simp only [List.mem_map]
  constructor
  · rintro ⟨v, hv, rfl⟩
    have hv' := (List.perm_insertionSort (· ≤ ·) _).mem_iff.mp hv
    rw [List.mem_filter, List.mem_dedup] at hv'
    exact ⟨v, by simpa using hv'.2, hv'.1, rfl⟩
  · rintro ⟨v, hvs, hva, rfl⟩
    refine ⟨v, ?_, rfl⟩
    apply (List.perm_insertionSort (· ≤ ·) _).mem_iff.mpr
    rw [List.mem_filter, List.mem_dedup]
    exact ⟨hva, by simpa using hvs⟩

theorem mem_select_if_in_searchsort {a s : List ℤ} {i : ℕ} :
    i ∈ select_if_in_searchsort a s ↔ ∃ v, v ∈ s ∧ v ∈ a ∧ i = a.indexOf v := by
  unfold select_if_in_searchsort
  simp only [List.mem_map, List.mem_filter, decide_eq_true_eq]
  constructor
  · rintro ⟨v, ⟨hvs, hva⟩, rfl⟩
    exact ⟨v, hvs, hva, rfl⟩
  · rintro ⟨v, hvs, hva, rfl⟩
    exact ⟨v, ⟨hvs, hva⟩, rfl⟩

/-- On a duplicate-free array, first-occurrence indices of values in `s`
are exactly the in-range indices whose value lies in `s`. -/
theorem indexOf_common_char_of_nodup {a s : List ℤ} (ha : a.Nodup) {i : ℕ} :
    (∃ v, v ∈ s ∧ v ∈ a ∧ i = a.indexOf v) ↔ i < a.length ∧ a.getD i 0 ∈ s := by
  rw [indexOf_common_char]
  constructor
  · rintro ⟨hlt, hvs, _⟩
    exact ⟨hlt, hvs⟩
  · rintro ⟨hlt, hvs⟩
    refine ⟨hlt, hvs, ?_⟩
    intro j hj heqv
    have hjlt : j < a.length := lt_trans hj hlt
    have hg : a.get ⟨j, hjlt⟩ = a.get ⟨i, hlt⟩ := by
      have e1 : a.getD j 0 = a.get ⟨j, hjlt⟩ := by
        rw [List.getD_eq_getElem a 0 hjlt]
        rfl
      have e2 : a.getD i 0 = a.get ⟨i, hlt⟩ := by
        rw [List.getD_eq_getElem a 0 hlt]
        rfl
      rw [← e1, ← e2]
      exact heqv
    have hji : (⟨j, hjlt⟩ : Fin a.length) = ⟨i, hlt⟩ :=
      (List.Nodup.get_inj_iff ha).mp hg
    have : j = i := congrArg Fin.val hji
    omega

theorem sorted_lt_of_sorted_le_nodup {l : List ℤ} (hs : List.Sorted (· ≤ ·) l)
    (hn : l.Nodup) : List.Sorted (· < ·) l :=
  (hs.and hn).imp (fun h => lt_of_le_of_ne h.1 h.2)

theorem indexOf_lt_indexOf_of_sorted {a : List ℤ} (hs : List.Sorted (· ≤ ·) a)
    {v w : ℤ} (hv : v ∈ a) (hw : w ∈ a) (hvw : v < w) :
    a.indexOf v < a.indexOf w := by
  have hvl := List.indexOf_lt_length.mpr hv
  have hwl := List.indexOf_lt_length.mpr hw
  by_contra hle
  push_neg at hle
  rcases eq_or_lt_of_le hle with heq | hlt
  · have h1 := List.indexOf_get hvl
    have h2 := List.indexOf_get hwl
    have : v = w := by
      rw [← h1, ← h2]
      congr 1
      exact Fin.ext heq.symm
    omega
  · have h1 := List.indexOf_get hvl
    have h2 := List.indexOf_get hwl
    have hrel := hs.rel_get_of_lt
      (a := ⟨a.indexOf w, hwl⟩) (b := ⟨a.indexOf v, hvl⟩) hlt
    rw [h1, h2] at hrel
    omega

/-- A list of distinct values drawn from `a`, mapped through `indexOf`,
stays duplicate-free. -/
theorem nodup_map_indexOf {a l : List ℤ} (hl : l.Nodup) (hmem : ∀ v ∈ l, v ∈ a) :
    (l.map (fun v => a.indexOf v)).Nodup := by
  apply List.Nodup.map_on _ hl
  intro v hv w hw hvw
  have h1 : a.getD (a.indexOf v) 0 = v := getD_indexOf (hmem v hv)
  have h2 : a.getD (a.indexOf w) 0 = w := getD_indexOf (hmem w hw)
  rw [← h1, ← h2, hvw]

/-- A strictly sorted list of values drawn from a sorted `a`, mapped
through `indexOf`, is strictly sorted. -/
theorem sorted_map_indexOf {a l : List ℤ} (hs : List.Sorted (· ≤ ·) a)
    (hl : List.Sorted (· < ·) l) (hmem : ∀ v ∈ l, v ∈ a) :
    List.Sorted (· < ·) (l.map (fun v => a.indexOf v)) := by
  rw [List.Sorted, List.pairwise_map]
  apply hl.imp_of_mem
  intro v w hv hw hvw
  exact indexOf_lt_indexOf_of_sorted hs (hmem v hv) (hmem w hw) hvw

theorem nodup_select_if_in_iterate (a s : List ℤ) :
    (select_if_in_iterate a s).Nodup :=
  (List.nodup_range _).filter _

theorem sorted_select_if_in_iterate (a s : List ℤ) :
    List.Sorted (· < ·) (select_if_in_iterate a s) :=
  (List.pairwise_lt_range _).filter _

/-- The sorted list of distinct common values that mode "intersect" maps
through `indexOf`. -/
theorem intersect_core_facts (a s : List ℤ) :
    (List.insertionSort (· ≤ ·) (a.dedup.filter (fun v => decide (v ∈ s)))).Nodup ∧
    List.Sorted (· ≤ ·)
      (List.insertionSort (· ≤ ·) (a.dedup.filter (fun v => decide (v ∈ s)))) ∧
    ∀ v ∈ List.insertionSort (· ≤ ·) (a.dedup.filter (fun v => decide (v ∈ s))), v ∈ a := by
  have hperm := List.perm_insertionSort (· ≤ ·) (a.dedup.filter (fun v => decide (v ∈ s)))
  refine ⟨hperm.symm.nodup ((List.nodup_dedup a).filter _), ?_, ?_⟩
  · exact List.sorted_insertionSort (· ≤ ·) _
  · intro v hv
    have := hperm.mem_iff.mp hv
    rw [List.mem_filter, List.mem_dedup] at this
    exact this.1

/-! ## C2: mode agreement of `select_if_in` -/

/-- C2, counterexample to the claim as stated: for the sorted,
duplicate-free array `a = [1, 2, 3]` and `s = [2, 1]` (all elements of `s`
present in `a`), modes "iterate" and "searchsort" return the same index
set in different orders, so the three modes do *not* agree even though `a`
is sorted ascending. -/
theorem select_if_in_sorted_modes_disagree :
    List.Sorted (· ≤ ·) ([1, 2, 3] : List ℤ) ∧ ([1, 2, 3] : List ℤ).Nodup ∧
    (∀ x ∈ ([2, 1] : List ℤ), x ∈ ([1, 2, 3] : List ℤ)) ∧
    select_if_in_iterate [1, 2, 3] [2, 1] = [0, 1] ∧
    select_if_in_searchsort [1, 2, 3] [2, 1] = [1, 0] ∧
    select_if_in_iterate [1, 2, 3] [2, 1] ≠ select_if_in_searchsort [1, 2, 3] [2, 1] := by
  decide

/-- C2 (amended): for a duplicate-free `a` and `s` with all elements in
`a`, every mode returns an index array whose members are exactly
`{i | a[i] ∈ s}`; "iterate" and "intersect" differ at most in order
(they are permutations), and agree whenever `a` is sorted ascending;
"searchsort" — which lists indices in order of occurrence in `s` — agrees
with them when, in addition, `s` is duplicate-free and ascending. -/
theorem select_if_in_mode_agreement (a s : List ℤ) (ha : a.Nodup)
    (hs : ∀ x ∈ s, x ∈ a) :
    (∀ i : ℕ, i ∈ select_if_in_iterate a s ↔ i < a.length ∧ a.getD i 0 ∈ s) ∧
    (∀ i : ℕ, i ∈ select_if_in_intersect a s ↔ i < a.length ∧ a.getD i 0 ∈ s) ∧
    (∀ i : ℕ, i ∈ select_if_in_searchsort a s ↔ i < a.length ∧ a.getD i 0 ∈ s) ∧
    (select_if_in_intersect a s).Perm (select_if_in_iterate a s) ∧
    (List.Sorted (· ≤ ·) a →
      select_if_in_intersect a s = select_if_in_iterate a s ∧
      (List.Sorted (· < ·) s →
        select_if_in_searchsort a s = select_if_in_iterate a s)) := by
  obtain ⟨hcnd, hcsort, hcmem⟩ := intersect_core_facts a s
  have hiter : ∀ i : ℕ, i ∈ select_if_in_iterate a s ↔ i < a.length ∧ a.getD i 0 ∈ s :=
    fun _ => mem_select_if_in_iterate
  have hint : ∀ i : ℕ, i ∈ select_if_in_intersect a s ↔ i < a.length ∧ a.getD i 0 ∈ s :=
    fun _ => mem_select_if_in_intersect.trans (indexOf_common_char_of_nodup ha)
  have hsearch : ∀ i : ℕ,
      i ∈ select_if_in_searchsort a s ↔ i < a.length ∧ a.getD i 0 ∈ s :=
    fun _ => mem_select_if_in_searchsort.trans (indexOf_common_char_of_nodup ha)
  have hnint : (select_if_in_intersect a s).Nodup := nodup_map_indexOf hcnd hcmem
  have hniter := nodup_select_if_in_iterate a s
  have hperm : (select_if_in_intersect a s).Perm (select_if_in_iterate a s) :=
    (List.perm_ext_iff_of_nodup hnint hniter).mpr
      (fun i => (hint i).trans (hiter i).symm)
  refine ⟨hiter, hint, hsearch, hperm, ?_⟩
  intro hsorted
  have hsortiter := sorted_select_if_in_iterate a s
  constructor
  · have hsortint : List.Sorted (· < ·) (select_if_in_intersect a s) :=
      sorted_map_indexOf hsorted (sorted_lt_of_sorted_le_nodup hcsort hcnd) hcmem
    exact List.eq_of_perm_of_sorted hperm (hsortint.imp le_of_lt)
      (hsortiter.imp le_of_lt)
  · intro hssorted
    have hfilter : s.filter (fun v => decide (v ∈ a)) = s :=
      List.filter_eq_self.mpr (fun v hv => by simpa using hs v hv)
    have hnods : s.Nodup := hssorted.nodup
    have hnsearch : (select_if_in_searchsort a s).Nodup := by
      unfold select_if_in_searchsort
      rw [hfilter]
      exact nodup_map_indexOf hnods hs
    have hsortsearch : List.Sorted (· < ·) (select_if_in_searchsort a s) := by
      unfold select_if_in_searchsort
      rw [hfilter]
      exact sorted_map_indexOf hsorted hssorted hs
    have hperm2 : (select_if_in_searchsort a s).Perm (select_if_in_iterate a s) :=
      (List.perm_ext_iff_of_nodup hnsearch hniter).mpr
        (fun i => (hsearch i).trans (hiter i).symm)
    exact List.eq_of_perm_of_sorted hperm2 (hsortsearch.imp le_of_lt)
      (hsortiter.imp le_of_lt)

/-- Witness for the amended C2 at a concrete input. -/
theorem select_if_in_mode_agreement_witness :
    (∀ i : ℕ, i ∈ select_if_in_iterate [1, 4, 2, 6] [2, 4] ↔
      i < ([1, 4, 2, 6] : List ℤ).length ∧ ([1, 4, 2, 6] : List ℤ).getD i 0 ∈
        ([2, 4] : List ℤ)) ∧
    (∀ i : ℕ, i ∈ select_if_in_intersect [1, 4, 2, 6] [2, 4] ↔
      i < ([1, 4, 2, 6] : List ℤ).length ∧ ([1, 4, 2, 6] : List ℤ).getD i 0 ∈
        ([2, 4] : List ℤ)) ∧
    (∀ i : ℕ, i ∈ select_if_in_searchsort [1, 4, 2, 6] [2, 4] ↔
      i < ([1, 4, 2, 6] : List ℤ).length ∧ ([1, 4, 2, 6] : List ℤ).getD i 0 ∈
        ([2, 4] : List ℤ)) ∧
    (select_if_in_intersect [1, 4, 2, 6] [2, 4]).Perm
      (select_if_in_iterate [1, 4, 2, 6] [2, 4]) ∧
    (List.Sorted (· ≤ ·) ([1, 4, 2, 6] : List ℤ) →
      select_if_in_intersect [1, 4, 2, 6] [2, 4] =
        select_if_in_iterate [1, 4, 2, 6] [2, 4] ∧
      (List.Sorted (· < ·) ([2, 4] : List ℤ) →
        select_if_in_searchsort [1, 4, 2, 6] [2, 4] =
          select_if_in_iterate [1, 4, 2, 6] [2, 4])) :=
  select_if_in_mode_agreement [1, 4, 2, 6] [2, 4] (by decide) (by decide)

/-! ## C7: duplicate handling of `select_if_in` -/

/-- C7: when `a` contains duplicates, mode "iterate" returns every index
whose element occurs in `s` (all duplicate positions included), whereas
modes "searchsort" and "intersect" return exactly the first-occurrence
indices: an index is in their output precisely when it is in range, its
value occurs in `s`, and no earlier position holds the same value. -/
theorem select_if_in_duplicate_handling (a s : List ℤ) (_hdup : ¬ a.Nodup) :
    (∀ i : ℕ, i ∈ select_if_in_iterate a s ↔ i < a.length ∧ a.getD i 0 ∈ s) ∧
    (∀ i : ℕ, i ∈ select_if_in_searchsort a s ↔
      i < a.length ∧ a.getD i 0 ∈ s ∧ ∀ j : ℕ, j < i → a.getD j 0 ≠ a.getD i 0) ∧
    (∀ i : ℕ, i ∈ select_if_in_intersect a s ↔
      i < a.length ∧ a.getD i 0 ∈ s ∧ ∀ j : ℕ, j < i → a.getD j 0 ≠ a.getD i 0) :=
  ⟨fun _ => mem_select_if_in_iterate,
   fun _ => mem_select_if_in_searchsort.trans indexOf_common_char,
   fun _ => mem_select_if_in_intersect.trans indexOf_common_char⟩

/-- Witness for C7 at a concrete input with duplicates in `a`. -/
theorem select_if_in_duplicate_handling_witness :
    (∀ i : ℕ, i ∈ select_if_in_iterate [1, 1, 2, 1] [1] ↔
      i < ([1, 1, 2, 1] : List ℤ).length ∧
        ([1, 1, 2, 1] : List ℤ).getD i 0 ∈ ([1] : List ℤ)) ∧
    (∀ i : ℕ, i ∈ select_if_in_searchsort [1, 1, 2, 1] [1] ↔
      i < ([1, 1, 2, 1] : List ℤ).length ∧
        ([1, 1, 2, 1] : List ℤ).getD i 0 ∈ ([1] : List ℤ) ∧
        ∀ j : ℕ, j < i →
          ([1, 1, 2, 1] : List ℤ).getD j 0 ≠ ([1, 1, 2, 1] : List ℤ).getD i 0) ∧
    (∀ i : ℕ, i ∈ select_if_in_intersect [1, 1, 2, 1] [1] ↔
      i < ([1, 1, 2, 1] : List ℤ).length ∧
        ([1, 1, 2, 1] : List ℤ).getD i 0 ∈ ([1] : List ℤ) ∧
        ∀ j : ℕ, j < i →
          ([1, 1, 2, 1] : List ℤ).getD j 0 ≠ ([1, 1, 2, 1] : List ℤ).getD i 0) :=
  select_if_in_duplicate_handling [1, 1, 2, 1] [1] (by decide)

end Staffehl
